import Mathlib

/-!
Shallow embedding of the matching engine of `image-matcher` (matcher.py),
together with theorems checking the natural-language specification against it.

Modelling conventions:
- Catalog products are records; a missing/empty `id` field is the empty string
  (Python falsiness), with fallback to the stringified `shopify_product_id`.
- Network fetch plus feature extraction is an oracle `fetch : String → Option F`:
  `none` models any fetch/decode/embed failure (the code swallows all of them
  identically and skips the image).
- Loading the query image (`load_and_strip_exif`) is fallible in the code
  (`Image.open` raises on a missing/corrupt file and `match` does not catch it),
  so the match entry points take an `Option F` query; a `none` overall result
  models an exception escaping `match`.
- Scores are rationals `ℚ` standing for the float scores; the hash-backend
  formula `max(0, 1 - distance / hash_size²)` is exact arithmetic on small
  integers, and the aggregation logic only compares scores.
- Python's insertion-ordered `dict` (`seen`) is an association list where
  updating a present key keeps its position and a new key is appended.
- Python's `sorted` (stable) with key `-score` is `List.insertionSort` with
  `descRel a b := b.score ≤ a.score`: both compute the unique stable
  descending-by-score permutation.
- The perceptual hash is its bit array `List Bool` (the hex string stored in
  the index and decoded back by `hex_to_hash` is a faithful round trip).
-/

namespace AutoClassify

/-- A catalog product record as consumed by the matchers
(`{id, shopify_product_id, handle, title, online_store_url, images}`). -/
structure Product where
  id : String
  shopifyProductId : String
  handle : String
  title : String
  onlineStoreUrl : String
  images : List String
  deriving Repr, DecidableEq

/-- Computed product id: `prod_id = p.get("id") or str(p.get("shopify_product_id", ""))`
(matcher.py line 46 / 140). -/
def Product.prodId (p : Product) : String :=
  if p.id = "" then p.shopifyProductId else p.id

/-- One row of the built index (`self.product_images` entry), with the
backend-specific feature `F` (embedding vector, or perceptual-hash bits). -/
structure IndexedImage (F : Type) where
  productId : String
  handle : String
  title : String
  onlineStoreUrl : String
  position : Nat
  imageUrl : String
  feature : F
  deriving Repr, DecidableEq

/-- The inner loop of `_build_index` over one product's (already truncated)
image-URL list: `for pos, img_url in enumerate(images[:max_images_per_product])`.
`idx` is the running global count of successfully indexed images. -/
def buildProduct (fetch : String → Option F) (maxCat : Nat) (p : Product) :
    Nat → List String → Nat → List (IndexedImage F)
  | _, [], _ => []
  | pos, u :: rest, idx =>
    if maxCat ≤ idx then []
    else if u = "" then buildProduct fetch maxCat p (pos + 1) rest idx
    else
      match fetch u with
      | none => buildProduct fetch maxCat p (pos + 1) rest idx
      | some f =>
          ⟨p.prodId, p.handle, p.title, p.onlineStoreUrl, pos, u, f⟩ ::
            buildProduct fetch maxCat p (pos + 1) rest (idx + 1)

/-- The rows contributed by one product: the image list is truncated to the
first `maxPer` positions before any skipping (matcher.py line 48 / 142). -/
def productSegment (fetch : String → Option F) (maxCat maxPer : Nat) (p : Product)
    (idx : Nat) : List (IndexedImage F) :=
  buildProduct fetch maxCat p 0 (p.images.take maxPer) idx

/-- The outer loop of `_build_index` over the catalog; `idx` counts
successfully indexed images and gates the global cap (lines 43-45 / 137-139). -/
def buildIndex (fetch : String → Option F) (maxCat maxPer : Nat) :
    List Product → Nat → List (IndexedImage F)
  | [], _ => []
  | p :: rest, idx =>
    if maxCat ≤ idx then []
    else
      productSegment fetch maxCat maxPer p idx ++
        buildIndex fetch maxCat maxPer rest
          (idx + (productSegment fetch maxCat maxPer p idx).length)

/-- Whole-catalog `_build_index` from an initial count of 0. -/
def buildIndexTop (fetch : String → Option F) (maxCat maxPer : Nat)
    (catalog : List Product) : List (IndexedImage F) :=
  buildIndex fetch maxCat maxPer catalog 0

/-- One `{product_id, url, score}` entry of the `seen` dict / match output. -/
structure MatchResult where
  productId : String
  url : String
  score : ℚ
  deriving Repr, DecidableEq

/-- Update `if pid not in seen or sc > seen[pid]["score"]: seen[pid] = {...}` on an
insertion-ordered dict: replace the first entry with this key when the new
score is strictly greater, keep its position; append a new key at the end. -/
def seenInsert (seen : List MatchResult) (r : MatchResult) : List MatchResult :=
  match seen with
  | [] => [r]
  | s :: rest =>
    if s.productId = r.productId then (if s.score < r.score then r else s) :: rest
    else s :: seenInsert rest r

/-- The comparison of `sorted(seen.values(), key=lambda x: -x["score"])`:
`a` may come before `b` exactly when `b.score ≤ a.score`. -/
def descRel (a b : MatchResult) : Prop := b.score ≤ a.score

instance : DecidableRel descRel := fun a b => inferInstanceAs (Decidable (b.score ≤ a.score))

instance : IsTotal MatchResult descRel := ⟨fun a b => le_total b.score a.score⟩

instance : IsTrans MatchResult descRel := ⟨fun _ _ _ hab hbc => le_trans hbc hab⟩

/-- Sorting `sorted(seen.values(), key=lambda x: -x["score"])`: the stable sort by
descending score (insertion sort realizes exactly the stable descending
order Python's `sorted` guarantees). -/
def sortDesc (l : List MatchResult) : List MatchResult :=
  List.insertionSort descRel l

/-- The aggregation loop of `ProductMatcher.match` (lines 98-105) over the
backend's `(score, index)` candidates. A negative index is the backend's
"no result" sentinel and is skipped; an out-of-range nonnegative index would
raise `IndexError` in Python, modelled by `none`. -/
def aggregateLoop (pImgs : List (IndexedImage F)) :
    List (ℚ × Int) → List MatchResult → Option (List MatchResult)
  | [], seen => some seen
  | (sc, ix) :: rest, seen =>
    if ix < 0 then aggregateLoop pImgs rest seen
    else
      match pImgs[ix.toNat]? with
      | none => none
      | some pi =>
          aggregateLoop pImgs rest (seenInsert seen ⟨pi.productId, pi.onlineStoreUrl, sc⟩)

/-- Aggregate candidates by product (max score wins), sort by descending
score, truncate to `topK` (lines 97-107). -/
def aggregate (pImgs : List (IndexedImage F)) (cands : List (ℚ × Int))
    (topK : Nat) : Option (List MatchResult) :=
  (aggregateLoop pImgs cands []).map (fun seen => (sortDesc seen).take topK)

/-- Model of `ProductMatcher.match` (lines 87-107). `self.index is None` exactly when
no image was indexed, i.e. `product_images` is empty. `search` is the FAISS
backend oracle; it is asked for `min(top_k * 2, len(self.product_images))`
candidates. `load` is the result of `load_and_strip_exif` + `embed_image` on
the query image; `none` means the load raised, and the exception propagates. -/
def productMatch (pImgs : List (IndexedImage F)) (search : F → Nat → List (ℚ × Int))
    (load : Option F) (topK : Nat) : Option (List MatchResult) :=
  if pImgs.isEmpty then some []
  else
    match load with
    | none => none
    | some q => aggregate pImgs (search q (min (topK * 2) pImgs.length)) topK

/-- Hamming distance between two hash bit arrays
(`query_hash - hex_to_hash(pi["phash"])`, a count of differing bits). -/
def hammingDistance (a b : List Bool) : Nat :=
  (List.zipWith xor a b).count true

/-- The per-candidate score of the hash backend (matcher.py line 174):
`max(0.0, 1.0 - distance / max_distance)` with `max_distance = hash_size²`. -/
def hashCandidateScore (hashSize : Nat) (queryHash storedHash : List Bool) : ℚ :=
  max 0 (1 - (hammingDistance queryHash storedHash : ℚ) / ((hashSize * hashSize : Nat) : ℚ))

/-- Model of `HashProductMatcher.match` (lines 165-178): linear scan over the index,
per-product max via the `seen` dict, stable descending sort, truncate. -/
def hashMatch (pImgs : List (IndexedImage (List Bool))) (load : Option (List Bool))
    (hashSize : Nat) (topK : Nat) : Option (List MatchResult) :=
  if pImgs.isEmpty then some []
  else
    match load with
    | none => none
    | some q =>
        some ((sortDesc (pImgs.foldl
          (fun seen pi =>
            seenInsert seen ⟨pi.productId, pi.onlineStoreUrl,
              hashCandidateScore hashSize q pi.feature⟩) [])).take topK)

/-- The configuration fields set by `ProductMatcher.__init__`
(lines 32-33): `max(1, int(v))` clamps. -/
structure MatcherConfig where
  maxCatalogImages : Int
  maxImagesPerProduct : Int
  deriving Repr, DecidableEq

/-- Clamping of `ProductMatcher.__init__` (never rejects a value). -/
def mkMatcherConfig (maxCatalogImages maxImagesPerProduct : Int) : MatcherConfig :=
  { maxCatalogImages := max 1 maxCatalogImages,
    maxImagesPerProduct := max 1 maxImagesPerProduct }

/-- The configuration fields set by `HashProductMatcher.__init__`
(lines 121-123): `max(1, ·)`, `max(1, ·)`, `max(4, ·)` clamps. -/
structure HashMatcherConfig where
  maxCatalogImages : Int
  maxImagesPerProduct : Int
  hashSize : Int
  deriving Repr, DecidableEq

/-- Clamping of `HashProductMatcher.__init__` (never rejects a value). -/
def mkHashMatcherConfig (maxCatalogImages maxImagesPerProduct hashSize : Int) :
    HashMatcherConfig :=
  { maxCatalogImages := max 1 maxCatalogImages,
    maxImagesPerProduct := max 1 maxImagesPerProduct,
    hashSize := max 4 hashSize }

/-! Specification-side helpers used to state and prove the properties. -/

/-- The valid (non-sentinel, in-range) candidates of a backend answer, listed
as the match-result entries they contribute, in candidate order. -/
def contribs (pImgs : List (IndexedImage F)) (cands : List (ℚ × Int)) :
    List MatchResult :=
  cands.filterMap (fun c =>
    if c.2 < 0 then none
    else (pImgs[c.2.toNat]?).map (fun pi => ⟨pi.productId, pi.onlineStoreUrl, c.1⟩))

/-- The score stored in the `seen` dict for a product id, if present. -/
def scoreOf? : List MatchResult → String → Option ℚ
  | [], _ => none
  | r :: rest, pid => if r.productId = pid then some r.score else scoreOf? rest pid

/-- The maximum score among the entries for `pid`, if any. -/
def maxScore? (pid : String) : List MatchResult → Option ℚ
  | [] => none
  | r :: rs =>
    if r.productId = pid then some ((maxScore? pid rs).elim r.score (max r.score))
    else maxScore? pid rs

/-- Maximum of two optional scores (`none` = absent). -/
def optMax : Option ℚ → Option ℚ → Option ℚ
  | none, b => b
  | some s, none => some s
  | some s, some m => some (max s m)

/-! Concrete fixtures used to evaluate the definitions on closed inputs. -/

/-- A product with a single fetchable image. -/
def pEx1 : Product := ⟨"p1", "", "h1", "t1", "u1", ["good1"]⟩

/-- A second product with a single fetchable image. -/
def pEx2 : Product := ⟨"p2", "", "h2", "t2", "u2", ["good2"]⟩

/-- A product whose first image URL fails to fetch and whose second is fine. -/
def pExFail : Product := ⟨"pf", "", "hf", "tf", "uf", ["bad", "good1"]⟩

/-- A fetch oracle succeeding on the two `good` URLs only. -/
def fetchEx : String → Option Nat :=
  fun u => if u = "good1" then some 1 else if u = "good2" then some 2 else none

/-- A two-image index, both images belonging to the same product. -/
def pImgsEx : List (IndexedImage Nat) :=
  [⟨"p", "h", "t", "u", 0, "i1", 1⟩, ⟨"p", "h", "t", "u", 1, "i2", 2⟩]

/-- Two candidates for the same product with distinct scores. -/
def candsEx : List (ℚ × Int) := [(1, 0), (2, 1)]

/-- A match result used to exercise score ties. -/
def mrEx1 : MatchResult := ⟨"p", "u", 1⟩

/-- A second match result with the same score as `mrEx1`. -/
def mrEx2 : MatchResult := ⟨"q", "v", 1⟩

/-! Structural lemmas about the index build. -/

theorem buildProduct_of_le (fetch : String → Option F) {maxCat : Nat} (p : Product)
    (pos : Nat) (urls : List String) {idx : Nat} (h : maxCat ≤ idx) :
    buildProduct fetch maxCat p pos urls idx = [] := by
  cases urls with
  | nil => rfl
  | cons u rest => simp [buildProduct, h]

theorem buildIndex_of_le (fetch : String → Option F) (maxPer : Nat) {maxCat : Nat}
    (cat : List Product) {idx : Nat} (h : maxCat ≤ idx) :
    buildIndex fetch maxCat maxPer cat idx = [] := by
  cases cat with
  | nil => rfl
  | cons p rest => simp [buildIndex, h]

theorem buildProduct_length_le_sub (fetch : String → Option F) (maxCat : Nat)
    (p : Product) (urls : List String) :
    ∀ (pos idx : Nat), (buildProduct fetch maxCat p pos urls idx).length ≤ maxCat - idx := by
  induction urls with
  | nil => intro pos idx; simp [buildProduct]
  | cons u rest ih =>
    intro pos idx
    simp only [buildProduct]
    by_cases h : maxCat ≤ idx
    · simp [h]
    · rw [if_neg h]
      by_cases hu : u = ""
      · rw [if_pos hu]; exact ih (pos + 1) idx
      · rw [if_neg hu]
        cases hf : fetch u with
        | none => exact ih (pos + 1) idx
        | some f =>
          have := ih (pos + 1) (idx + 1)
          simp only [List.length_cons]
          omega

theorem buildProduct_length_le_urls (fetch : String → Option F) (maxCat : Nat)
    (p : Product) (urls : List String) :
    ∀ (pos idx : Nat), (buildProduct fetch maxCat p pos urls idx).length ≤ urls.length := by
  induction urls with
  | nil => intro pos idx; simp [buildProduct]
  | cons u rest ih =>
    intro pos idx
    simp only [buildProduct]
    by_cases h : maxCat ≤ idx
    · simp [h]
    · rw [if_neg h]
      by_cases hu : u = ""
      · rw [if_pos hu]
        exact le_trans (ih (pos + 1) idx) (Nat.le_succ _)
      · rw [if_neg hu]
        cases hf : fetch u with
        | none => exact le_trans (ih (pos + 1) idx) (Nat.le_succ _)
        | some f =>
          have := ih (pos + 1) (idx + 1)
          simp only [List.length_cons]
          omega

theorem buildIndex_length_le (fetch : String → Option F) (maxCat maxPer : Nat)
    (cat : List Product) :
    ∀ idx : Nat, (buildIndex fetch maxCat maxPer cat idx).length ≤ maxCat - idx := by
  induction cat with
  | nil => intro idx; simp [buildIndex]
  | cons p rest ih =>
    intro idx
    simp only [buildIndex]
    by_cases h : maxCat ≤ idx
    · simp [h]
    · rw [if_neg h]
      have h1 := buildProduct_length_le_sub fetch maxCat p (p.images.take maxPer) 0 idx
      have h2 := ih (idx + (productSegment fetch maxCat maxPer p idx).length)
      simp only [List.length_append]
      unfold productSegment at *
      omega

theorem productId_of_mem_buildProduct (fetch : String → Option F) (maxCat : Nat)
    (p : Product) (urls : List String) :
    ∀ (pos idx : Nat) (r : IndexedImage F),
      r ∈ buildProduct fetch maxCat p pos urls idx → r.productId = p.prodId := by
  induction urls with
  | nil => intro pos idx r hr; simp [buildProduct] at hr
  | cons u rest ih =>
    intro pos idx r hr
    simp only [buildProduct] at hr
    by_cases h : maxCat ≤ idx
    · simp [h] at hr
    · rw [if_neg h] at hr
      by_cases hu : u = ""
      · rw [if_pos hu] at hr; exact ih (pos + 1) idx r hr
      · rw [if_neg hu] at hr
        cases hf : fetch u with
        | none => rw [hf] at hr; exact ih (pos + 1) idx r hr
        | some f =>
          rw [hf] at hr
          rcases List.mem_cons.mp hr with h1 | h2
          · rw [h1]
          · exact ih (pos + 1) (idx + 1) r h2

theorem productId_of_mem_buildIndex (fetch : String → Option F) (maxCat maxPer : Nat)
    (cat : List Product) :
    ∀ (idx : Nat) (r : IndexedImage F),
      r ∈ buildIndex fetch maxCat maxPer cat idx → r.productId ∈ cat.map Product.prodId := by
  induction cat with
  | nil => intro idx r hr; simp [buildIndex] at hr
  | cons p rest ih =>
    intro idx r hr
    simp only [buildIndex] at hr
    by_cases h : maxCat ≤ idx
    · simp [h] at hr
    · rw [if_neg h] at hr
      rcases List.mem_append.mp hr with h1 | h2
      · simp only [List.map_cons, List.mem_cons]
        exact Or.inl (productId_of_mem_buildProduct fetch maxCat p _ 0 idx r h1)
      · simp only [List.map_cons, List.mem_cons]
        exact Or.inr (ih _ r h2)

theorem buildIndex_filter_length_le (fetch : String → Option F) (maxCat maxPer : Nat)
    (cat : List Product) (pid : String) :
    ∀ idx : Nat, (cat.map Product.prodId).Nodup →
      ((buildIndex fetch maxCat maxPer cat idx).filter
        (fun r => r.productId == pid)).length ≤ maxPer := by
  induction cat with
  | nil => intro idx _; simp [buildIndex]
  | cons p rest ih =>
    intro idx hnd
    rw [List.map_cons, List.nodup_cons] at hnd
    obtain ⟨hnotmem, htail⟩ := hnd
    simp only [buildIndex]
    by_cases h : maxCat ≤ idx
    · simp [h]
    · rw [if_neg h, List.filter_append, List.length_append]
      by_cases hpid : pid = p.prodId
      · have hrest : ((buildIndex fetch maxCat maxPer rest
            (idx + (productSegment fetch maxCat maxPer p idx).length)).filter
              (fun r => r.productId == pid)).length = 0 := by
          rw [List.length_eq_zero, List.filter_eq_nil_iff]
          intro r hr
          have hmem := productId_of_mem_buildIndex fetch maxCat maxPer rest _ r hr
          simp only [beq_iff_eq]
          intro heq
          exact hnotmem (by rw [← hpid, ← heq]; exact hmem)
        have hseg : ((productSegment fetch maxCat maxPer p idx).filter
            (fun r => r.productId == pid)).length ≤ maxPer := by
          refine le_trans (List.length_filter_le _ _) ?_
          simp only [productSegment]
          refine le_trans (buildProduct_length_le_urls fetch maxCat p _ 0 idx) ?_
          exact List.length_take_le _ _
        omega
      · have hseg : ((productSegment fetch maxCat maxPer p idx).filter
            (fun r => r.productId == pid)).length = 0 := by
          rw [List.length_eq_zero, List.filter_eq_nil_iff]
          intro r hr
          have hr' : r ∈ buildProduct fetch maxCat p 0 (p.images.take maxPer) idx := by
            simpa [productSegment] using hr
          have := productId_of_mem_buildProduct fetch maxCat p _ 0 idx r hr'
          simp only [beq_iff_eq]
          intro heq
          exact hpid (heq ▸ this)
        have := ih (idx + (productSegment fetch maxCat maxPer p idx).length) htail
        omega

/-- C1: for every catalog and configuration with `maxCatalogImages ≥ 1` and
`maxImagesPerProduct ≥ 1`, the built index holds at most `maxCatalogImages`
records in total and at most `maxImagesPerProduct` records per product; the
build stops entirely once the cumulative count reaches `maxCatalogImages`;
with `maxCatalogImages = 1` and two products each with one fetchable image,
the index is exactly the first-encountered image's record. -/
theorem c1_index_respects_caps (F : Type) (fetch : String → Option F)
    (maxCat maxPer : Nat) (catalog : List Product)
    (h1 : 1 ≤ maxCat) (h2 : 1 ≤ maxPer) :
    (buildIndexTop fetch maxCat maxPer catalog).length ≤ maxCat
    ∧ ((catalog.map Product.prodId).Nodup → ∀ pid : String,
        ((buildIndexTop fetch maxCat maxPer catalog).filter
          (fun r => r.productId == pid)).length ≤ maxPer)
    ∧ (∀ (cat : List Product) (idx : Nat), maxCat ≤ idx →
        buildIndex fetch maxCat maxPer cat idx = [])
    ∧ (∀ (p1 p2 : Product) (u1 : String) (f1 : F),
        p1.images = [u1] → u1 ≠ "" → fetch u1 = some f1 →
        buildIndexTop fetch 1 maxPer [p1, p2]
          = [⟨p1.prodId, p1.handle, p1.title, p1.onlineStoreUrl, 0, u1, f1⟩]) := by
  refine ⟨?_, ?_, ?_, ?_⟩
  · simpa [buildIndexTop] using buildIndex_length_le fetch maxCat maxPer catalog 0
  · intro hnd pid
    exact buildIndex_filter_length_le fetch maxCat maxPer catalog pid 0 hnd
  · intro cat idx h
    exact buildIndex_of_le fetch maxPer cat h
  · intro p1 p2 u1 f1 himg hu hf
    obtain ⟨n, rfl⟩ : ∃ n, maxPer = n + 1 := ⟨maxPer - 1, by omega⟩
    have hseg : productSegment fetch 1 (n + 1) p1 0
        = [⟨p1.prodId, p1.handle, p1.title, p1.onlineStoreUrl, 0, u1, f1⟩] := by
      simp [productSegment, himg, buildProduct, hu, hf]
    simp only [buildIndexTop, buildIndex]
    rw [if_neg (by omega : ¬ (1 : Nat) ≤ 0), hseg]
    simp [buildIndex_of_le fetch (n + 1) [p2] (show (1 : Nat) ≤ 0 + 1 by omega)]

/-- Witness for C1 at a concrete catalog: global cap 1, two products with one
fetchable image each; the hypotheses of `c1_index_respects_caps` are
discharged at this input. -/
theorem c1_index_respects_caps_witness :
    (buildIndexTop fetchEx 1 1 [pEx1, pEx2]).length ≤ 1
    ∧ buildIndexTop fetchEx 1 1 [pEx1, pEx2]
        = [⟨pEx1.prodId, pEx1.handle, pEx1.title, pEx1.onlineStoreUrl, 0, "good1", 1⟩] := by
  refine ⟨(c1_index_respects_caps Nat fetchEx 1 1 [pEx1, pEx2] (by decide) (by decide)).1, ?_⟩
  exact (c1_index_respects_caps Nat fetchEx 1 1 [pEx1, pEx2] (by decide) (by decide)).2.2.2
    pEx1 pEx2 "good1" 1 rfl (by decide) rfl

/-- C3: matching against an empty index (including one built from the empty
catalog) returns the empty sequence rather than an error, for any input and
any `topK`; building from the empty catalog yields the empty index. -/
theorem c3_empty_index_empty_result (F : Type) (fetch : String → Option F)
    (search : F → Nat → List (ℚ × Int)) (maxCat maxPer topK hashSize : Nat)
    (load : Option F) (hload : Option (List Bool)) :
    buildIndexTop fetch maxCat maxPer [] = ([] : List (IndexedImage F))
    ∧ productMatch ([] : List (IndexedImage F)) search load topK = some []
    ∧ hashMatch [] hload hashSize topK = some []
    ∧ productMatch (buildIndexTop fetch maxCat maxPer []) search load topK = some [] :=
  ⟨rfl, rfl, rfl, rfl⟩

/-- C9: construction never rejects an integer configuration value (zero and
negatives included); it clamps `maxCatalogImages` and `maxImagesPerProduct` to
`max 1 ·` and `hashSize` to `max 4 ·`, so the invariants `≥ 1`, `≥ 1`, `≥ 4`
hold after construction. -/
theorem c9_construction_clamps_config (mc mp hs : Int) :
    mkMatcherConfig mc mp = ⟨max 1 mc, max 1 mp⟩
    ∧ mkHashMatcherConfig mc mp hs = ⟨max 1 mc, max 1 mp, max 4 hs⟩
    ∧ 1 ≤ (mkMatcherConfig mc mp).maxCatalogImages
    ∧ 1 ≤ (mkMatcherConfig mc mp).maxImagesPerProduct
    ∧ 1 ≤ (mkHashMatcherConfig mc mp hs).maxCatalogImages
    ∧ 1 ≤ (mkHashMatcherConfig mc mp hs).maxImagesPerProduct
    ∧ 4 ≤ (mkHashMatcherConfig mc mp hs).hashSize := by
  refine ⟨rfl, rfl, ?_, ?_, ?_, ?_, ?_⟩ <;>
    simp [mkMatcherConfig, mkHashMatcherConfig]

theorem buildProduct_images_irrelevant (fetch : String → Option F) (maxCat : Nat)
    (p : Product) (l : List String) (urls : List String) :
    ∀ (pos idx : Nat),
      buildProduct fetch maxCat { p with images := l } pos urls idx
        = buildProduct fetch maxCat p pos urls idx := by
  induction urls with
  | nil => intro pos idx; rfl
  | cons u rest ih =>
    intro pos idx
    by_cases h : maxCat ≤ idx
    · rw [buildProduct_of_le fetch _ _ _ h, buildProduct_of_le fetch _ _ _ h]
    · by_cases hu : u = ""
      · simp only [buildProduct]
        rw [if_neg h, if_neg h, if_pos hu, if_pos hu, ih]
      · simp only [buildProduct]
        rw [if_neg h, if_neg h, if_neg hu, if_neg hu]
        cases hf : fetch u with
        | none => rw [ih]
        | some f => simp [Product.prodId, ih]

theorem buildProduct_all_fail (fetch : String → Option F) (maxCat : Nat) (p : Product)
    (urls : List String) :
    ∀ (pos idx : Nat), (∀ u ∈ urls, u = "" ∨ fetch u = none) →
      buildProduct fetch maxCat p pos urls idx = [] := by
  induction urls with
  | nil => intro pos idx _; rfl
  | cons u rest ih =>
    intro pos idx hall
    by_cases h : maxCat ≤ idx
    · exact buildProduct_of_le fetch p pos _ h
    · have htail : ∀ v ∈ rest, v = "" ∨ fetch v = none :=
        fun v hv => hall v (List.mem_cons_of_mem u hv)
      simp only [buildProduct]
      rw [if_neg h]
      by_cases hu : u = ""
      · rw [if_pos hu]; exact ih (pos + 1) idx htail
      · rcases hall u (List.mem_cons_self u rest) with hu' | hf
        · exact absurd hu' hu
        · rw [if_neg hu, hf]; exact ih (pos + 1) idx htail

/-- C6: during index build an empty image URL is skipped, a failed fetch or
decode skips only that single image while the build continues over the
remaining URLs and products, and a product contributing nothing does not stop
the build over the rest of the catalog. -/
theorem c6_build_skips_failing_images (F : Type) (fetch : String → Option F)
    (maxCat maxPer : Nat) (p : Product) (pos idx : Nat) (rest : List String)
    (catalog : List Product) :
    buildProduct fetch maxCat p pos ("" :: rest) idx
        = buildProduct fetch maxCat p (pos + 1) rest idx
    ∧ (∀ u : String, fetch u = none →
        buildProduct fetch maxCat p pos (u :: rest) idx
          = buildProduct fetch maxCat p (pos + 1) rest idx)
    ∧ (productSegment fetch maxCat maxPer p idx = [] →
        buildIndex fetch maxCat maxPer (p :: catalog) idx
          = buildIndex fetch maxCat maxPer catalog idx) := by
  refine ⟨?_, ?_, ?_⟩
  · by_cases h : maxCat ≤ idx
    · rw [buildProduct_of_le fetch p pos _ h, buildProduct_of_le fetch p (pos + 1) rest h]
    · simp only [buildProduct]
      rw [if_neg h]
      simp
  · intro u hf
    by_cases h : maxCat ≤ idx
    · rw [buildProduct_of_le fetch p pos _ h, buildProduct_of_le fetch p (pos + 1) rest h]
    · by_cases hu : u = ""
      · subst hu
        simp only [buildProduct]
        rw [if_neg h]
        simp
      · simp only [buildProduct]
        rw [if_neg h, if_neg hu, hf]
  · intro hseg
    by_cases h : maxCat ≤ idx
    · rw [buildIndex_of_le fetch maxPer _ h, buildIndex_of_le fetch maxPer _ h]
    · simp only [buildIndex]
      rw [if_neg h, hseg]
      simp

/-- Witness for C6 at concrete inputs: an empty URL, a URL whose fetch fails,
and a product whose whole budgeted prefix fails. -/
theorem c6_build_skips_failing_images_witness :
    buildProduct fetchEx 5 pEx1 0 ("" :: ["good1"]) 0
        = buildProduct fetchEx 5 pEx1 1 ["good1"] 0
    ∧ buildProduct fetchEx 5 pEx1 0 ("bad" :: ["good1"]) 0
        = buildProduct fetchEx 5 pEx1 1 ["good1"] 0
    ∧ buildIndex fetchEx 5 1 (pExFail :: [pEx1]) 0 = buildIndex fetchEx 5 1 [pEx1] 0 :=
  ⟨(c6_build_skips_failing_images Nat fetchEx 5 1 pEx1 0 0 ["good1"] [pEx1]).1,
   (c6_build_skips_failing_images Nat fetchEx 5 1 pEx1 0 0 ["good1"] [pEx1]).2.1 "bad" rfl,
   (c6_build_skips_failing_images Nat fetchEx 5 1 pExFail 0 0 ["good1"] [pEx1]).2.2 (by decide)⟩

/-- C10: the per-product budget is the first `maxImagesPerProduct` positions
of the image list, applied before any skipping (images beyond that prefix are
irrelevant); a product whose whole budgeted prefix is empty or failing
contributes zero records even if later URLs are valid; the global counter
advances exactly by the number of successfully indexed images of the
product. -/
theorem c10_per_product_budget_before_skipping (F : Type) (fetch : String → Option F)
    (maxCat maxPer : Nat) (p : Product) (idx : Nat) (catalog : List Product) :
    productSegment fetch maxCat maxPer p idx
      = productSegment fetch maxCat maxPer { p with images := p.images.take maxPer } idx
    ∧ ((∀ u ∈ p.images.take maxPer, u = "" ∨ fetch u = none) →
        productSegment fetch maxCat maxPer p idx = [])
    ∧ (¬ maxCat ≤ idx →
        buildIndex fetch maxCat maxPer (p :: catalog) idx
          = productSegment fetch maxCat maxPer p idx
            ++ buildIndex fetch maxCat maxPer catalog
                 (idx + (productSegment fetch maxCat maxPer p idx).length)) := by
  refine ⟨?_, ?_, ?_⟩
  · simp only [productSegment, buildProduct_images_irrelevant, List.take_take, min_self]
  · intro hall
    rw [productSegment]
    exact buildProduct_all_fail fetch maxCat p _ 0 idx hall
  · intro h
    simp only [buildIndex]
    rw [if_neg h]

/-- Witness for C10 at a concrete product whose first (and only budgeted) URL
fails while its second URL would fetch fine. -/
theorem c10_per_product_budget_before_skipping_witness :
    productSegment fetchEx 5 1 pExFail 0 = []
    ∧ buildIndex fetchEx 5 1 (pExFail :: [pEx1]) 0
        = productSegment fetchEx 5 1 pExFail 0
          ++ buildIndex fetchEx 5 1 [pEx1]
               (0 + (productSegment fetchEx 5 1 pExFail 0).length) :=
  ⟨(c10_per_product_budget_before_skipping Nat fetchEx 5 1 pExFail 0 [pEx1]).2.1 (by decide),
   (c10_per_product_budget_before_skipping Nat fetchEx 5 1 pExFail 0 [pEx1]).2.2 (by decide)⟩

/-! Lemmas about the insertion-ordered `seen` dict. -/

theorem seenInsert_map_productId (r : MatchResult) :
    ∀ seen : List MatchResult,
      (seenInsert seen r).map MatchResult.productId
        = if r.productId ∈ seen.map MatchResult.productId
          then seen.map MatchResult.productId
          else seen.map MatchResult.productId ++ [r.productId] := by
  intro seen
  induction seen with
  | nil => simp [seenInsert]
  | cons s rest ih =>
    simp only [seenInsert]
    by_cases hs : s.productId = r.productId
    · have hhead : (if s.score < r.score then r else s).productId = s.productId := by
        split
        · rw [hs]
        · rfl
      rw [if_pos hs]
      simp only [List.map_cons, hhead]
      rw [if_pos (List.mem_cons.mpr (Or.inl hs.symm))]
    · rw [if_neg hs]
      simp only [List.map_cons, ih]
      by_cases hmem : r.productId ∈ rest.map MatchResult.productId
      · rw [if_pos hmem, if_pos (List.mem_cons.mpr (Or.inr hmem))]
      · rw [if_neg hmem, if_neg (by
          rw [List.mem_cons]
          rintro (h1 | h2)
          · exact hs h1.symm
          · exact hmem h2)]
        simp

theorem seenInsert_pid_nodup (r : MatchResult) (seen : List MatchResult)
    (h : (seen.map MatchResult.productId).Nodup) :
    ((seenInsert seen r).map MatchResult.productId).Nodup := by
  rw [seenInsert_map_productId]
  split
  · exact h
  · rename_i hmem
    rw [List.nodup_append]
    exact ⟨h, List.nodup_singleton _,
      fun x hx => by simp only [List.mem_singleton]; intro he; exact hmem (he ▸ hx)⟩

theorem scoreOf?_seenInsert (r : MatchResult) (pid : String) :
    ∀ seen : List MatchResult,
      scoreOf? (seenInsert seen r) pid
        = if pid = r.productId
          then some ((scoreOf? seen pid).elim r.score (fun s => max s r.score))
          else scoreOf? seen pid := by
  intro seen
  induction seen with
  | nil =>
    by_cases hp : pid = r.productId
    · simp [seenInsert, scoreOf?, hp]
    · have h' : ¬ r.productId = pid := fun h => hp h.symm
      simp [seenInsert, scoreOf?, hp, h']
  | cons s rest ih =>
    by_cases hs : s.productId = r.productId
    · simp only [seenInsert, if_pos hs]
      by_cases hsc : s.score < r.score
      · rw [if_pos hsc]
        simp only [scoreOf?]
        by_cases hp : pid = r.productId
        · rw [if_pos (by rw [hp]), if_pos hp, if_pos (by rw [hs, hp])]
          simp [max_eq_right hsc.le]
        · rw [if_neg (fun h => hp h.symm), if_neg hp,
            if_neg (by rw [hs]; exact fun h => hp h.symm)]
      · rw [if_neg hsc]
        simp only [scoreOf?]
        by_cases hp : pid = r.productId
        · rw [if_pos (by rw [hs, hp]), if_pos hp]
          simp [max_eq_left (not_lt.mp hsc)]
        · rw [if_neg (by rw [hs]; exact fun h => hp h.symm), if_neg hp]
    · simp only [seenInsert, if_neg hs]
      simp only [scoreOf?]
      by_cases hsp : s.productId = pid
      · have hp : ¬ pid = r.productId := by
          rw [← hsp]
          exact fun h => hs h
        rw [if_pos hsp, if_neg hp, if_pos hsp]
      · rw [if_neg hsp, ih]
        by_cases hp : pid = r.productId
        · rw [if_pos hp, if_pos hp]
          simp only [scoreOf?, if_neg hsp]
        · rw [if_neg hp, if_neg hp]
          simp only [scoreOf?, if_neg hsp]

theorem scoreOf?_foldl (pid : String) :
    ∀ (rs : List MatchResult) (seen : List MatchResult),
      scoreOf? (rs.foldl seenInsert seen) pid
        = optMax (scoreOf? seen pid) (maxScore? pid rs) := by
  intro rs
  induction rs with
  | nil =>
    intro seen
    cases h : scoreOf? seen pid <;> simp [optMax, maxScore?, h]
  | cons r rs ih =>
    intro seen
    simp only [List.foldl_cons]
    rw [ih (seenInsert seen r), scoreOf?_seenInsert]
    simp only [maxScore?]
    by_cases hp : pid = r.productId
    · rw [if_pos hp, if_pos hp.symm]
      cases hs : scoreOf? seen pid <;> cases hm : maxScore? pid rs <;>
        simp [optMax, max_assoc]
    · rw [if_neg hp, if_neg (fun h => hp h.symm)]

theorem foldl_seenInsert_pid_nodup :
    ∀ (rs seen : List MatchResult), ((seen.map MatchResult.productId).Nodup) →
      (((rs.foldl seenInsert seen).map MatchResult.productId)).Nodup := by
  intro rs
  induction rs with
  | nil => intro seen h; exact h
  | cons r rs ih =>
    intro seen h
    simp only [List.foldl_cons]
    exact ih (seenInsert seen r) (seenInsert_pid_nodup r seen h)

theorem mem_pid_foldl (pid : String) :
    ∀ (rs seen : List MatchResult),
      pid ∈ (rs.foldl seenInsert seen).map MatchResult.productId
        ↔ pid ∈ seen.map MatchResult.productId ∨ pid ∈ rs.map MatchResult.productId := by
  intro rs
  induction rs with
  | nil => intro seen; simp
  | cons r rs ih =>
    intro seen
    simp only [List.foldl_cons]
    rw [ih (seenInsert seen r), seenInsert_map_productId]
    split
    · rename_i hmem
      simp only [List.map_cons, List.mem_cons]
      constructor
      · rintro (h | h)
        · exact Or.inl h
        · exact Or.inr (Or.inr h)
      · rintro (h | h | h)
        · exact Or.inl h
        · exact Or.inl (h ▸ hmem)
        · exact Or.inr h
    · simp only [List.mem_append, List.mem_singleton, List.map_cons, List.mem_cons]
      tauto

theorem scoreOf?_of_mem :
    ∀ seen : List MatchResult, (seen.map MatchResult.productId).Nodup →
      ∀ r ∈ seen, scoreOf? seen r.productId = some r.score := by
  intro seen
  induction seen with
  | nil => intro _ r hr; simp at hr
  | cons s rest ih =>
    intro hnd r hr
    rw [List.map_cons, List.nodup_cons] at hnd
    obtain ⟨hnotmem, htail⟩ := hnd
    simp only [scoreOf?]
    rcases List.mem_cons.mp hr with h | h
    · subst h; rw [if_pos rfl]
    · have hne : s.productId ≠ r.productId := by
        intro he
        exact hnotmem (he ▸ List.mem_map_of_mem MatchResult.productId h)
      rw [if_neg hne]
      exact ih htail r h

theorem maxScore?_eq_none (pid : String) :
    ∀ rs : List MatchResult, maxScore? pid rs = none ↔ ∀ r ∈ rs, r.productId ≠ pid := by
  intro rs
  induction rs with
  | nil => simp [maxScore?]
  | cons r rs ih =>
    simp only [maxScore?]
    by_cases hr : r.productId = pid
    · rw [if_pos hr]
      simp only [List.mem_cons]
      constructor
      · intro h; exact absurd h (by simp)
      · intro h; exact absurd hr (h r (Or.inl rfl))
    · rw [if_neg hr, ih]
      simp only [List.mem_cons]
      constructor
      · rintro h r' (h1 | h2)
        · exact h1 ▸ hr
        · exact h r' h2
      · intro h r' h2
        exact h r' (Or.inr h2)

theorem maxScore?_spec (pid : String) :
    ∀ (rs : List MatchResult) (m : ℚ), maxScore? pid rs = some m →
      (∃ r ∈ rs, r.productId = pid ∧ r.score = m)
      ∧ ∀ r ∈ rs, r.productId = pid → r.score ≤ m := by
  intro rs
  induction rs with
  | nil => intro m h; simp [maxScore?] at h
  | cons r rs ih =>
    intro m h
    simp only [maxScore?] at h
    by_cases hr : r.productId = pid
    · rw [if_pos hr] at h
      cases hm : maxScore? pid rs with
      | none =>
        rw [hm] at h
        simp only [Option.elim_none, Option.some_inj] at h
        refine ⟨⟨r, List.mem_cons_self r rs, hr, h⟩, ?_⟩
        intro r' hr' hpid'
        rcases List.mem_cons.mp hr' with h1 | h2
        · exact le_of_eq (h1 ▸ h)
        · exact absurd hpid' ((maxScore?_eq_none pid rs).mp hm r' h2)
      | some m' =>
        rw [hm] at h
        simp only [Option.elim_some, Option.some_inj] at h
        obtain ⟨⟨r0, hr0, hr0pid, hr0score⟩, hbound⟩ := ih m' hm
        refine ⟨?_, ?_⟩
        · rcases le_total m' r.score with hle | hle
          · exact ⟨r, List.mem_cons_self r rs, hr, by rw [← h, max_eq_left hle]⟩
          · exact ⟨r0, List.mem_cons_of_mem r hr0, hr0pid,
              by rw [hr0score, ← h, max_eq_right hle]⟩
        · intro r' hr' hpid'
          rcases List.mem_cons.mp hr' with h1 | h2
          · rw [h1, ← h]; exact le_max_left _ _
          · exact le_trans (hbound r' h2 hpid') (h ▸ le_max_right _ _)
    · rw [if_neg hr] at h
      obtain ⟨⟨r0, hr0, hr0pid, hr0score⟩, hbound⟩ := ih m h
      refine ⟨⟨r0, List.mem_cons_of_mem r hr0, hr0pid, hr0score⟩, ?_⟩
      intro r' hr' hpid'
      rcases List.mem_cons.mp hr' with h1 | h2
      · exact absurd (h1 ▸ hpid') hr
      · exact hbound r' h2 hpid'

theorem aggregateLoop_eq_foldl (pImgs : List (IndexedImage F)) :
    ∀ (cands : List (ℚ × Int)) (seen : List MatchResult),
      (∀ c ∈ cands, 0 ≤ c.2 → c.2.toNat < pImgs.length) →
      aggregateLoop pImgs cands seen
        = some ((contribs pImgs cands).foldl seenInsert seen) := by
  intro cands
  induction cands with
  | nil => intro seen _; simp [aggregateLoop, contribs]
  | cons c rest ih =>
    intro seen hvalid
    obtain ⟨sc, ix⟩ := c
    have htail : ∀ c ∈ rest, 0 ≤ c.2 → c.2.toNat < pImgs.length :=
      fun c hc => hvalid c (List.mem_cons_of_mem _ hc)
    by_cases hneg : ix < 0
    · simp only [aggregateLoop, if_pos hneg, contribs, List.filterMap_cons, if_pos hneg]
      exact ih seen htail
    · have hlt : ix.toNat < pImgs.length :=
        hvalid (sc, ix) (List.mem_cons_self _ _) (by omega)
      have hpi : pImgs[ix.toNat]? = some pImgs[ix.toNat] := List.getElem?_eq_getElem hlt
      simp only [aggregateLoop, if_neg hneg, contribs, List.filterMap_cons, hpi,
        Option.map_some']
      exact ih _ htail

theorem aggregateLoop_some_eq (pImgs : List (IndexedImage F)) :
    ∀ (cands : List (ℚ × Int)) (seen out : List MatchResult),
      aggregateLoop pImgs cands seen = some out →
      out = (contribs pImgs cands).foldl seenInsert seen := by
  intro cands
  induction cands with
  | nil =>
    intro seen out h
    simp only [aggregateLoop, Option.some_inj] at h
    simp [contribs, h]
  | cons c rest ih =>
    intro seen out h
    obtain ⟨sc, ix⟩ := c
    by_cases hneg : ix < 0
    · simp only [aggregateLoop, if_pos hneg] at h
      simpa [contribs, List.filterMap_cons, if_pos hneg] using ih seen out h
    · simp only [aggregateLoop, if_neg hneg] at h
      cases hpi : pImgs[ix.toNat]? with
      | none => rw [hpi] at h; exact absurd h (by simp)
      | some pi =>
        rw [hpi] at h
        simpa [contribs, List.filterMap_cons, if_neg hneg, hpi, Option.map_some']
          using ih _ out h

/-- C2: aggregation groups the backend's candidates by product id, discards
negative sentinel indices, and reports for every product the maximum of its
candidates' scores (never an average or sum). -/
theorem c2_aggregation_keeps_max (F : Type) (pImgs : List (IndexedImage F))
    (cands : List (ℚ × Int)) (topK : Nat)
    (hvalid : ∀ c ∈ cands, 0 ≤ c.2 → c.2.toNat < pImgs.length) :
    (∀ (sc : ℚ) (ix : Int), ix < 0 →
       aggregate pImgs ((sc, ix) :: cands) topK = aggregate pImgs cands topK)
    ∧ ∃ res, aggregate pImgs cands topK = some res ∧
        ∀ r ∈ res,
          (∃ c ∈ contribs pImgs cands, c.productId = r.productId ∧ c.score = r.score)
          ∧ ∀ c ∈ contribs pImgs cands, c.productId = r.productId → c.score ≤ r.score := by
  constructor
  · intro sc ix hneg
    simp [aggregate, aggregateLoop, if_pos hneg]
  · have hloop := aggregateLoop_eq_foldl pImgs cands [] hvalid
    set seen := (contribs pImgs cands).foldl seenInsert [] with hseen
    refine ⟨(sortDesc seen).take topK, ?_, ?_⟩
    · simp [aggregate, hloop]
    · intro r hr
      have hr1 : r ∈ sortDesc seen := List.mem_of_mem_take hr
      have hr2 : r ∈ seen := (List.Perm.mem_iff (List.perm_insertionSort descRel seen)).mp hr1
      have hnd : (seen.map MatchResult.productId).Nodup :=
        foldl_seenInsert_pid_nodup (contribs pImgs cands) [] (by simp)
      have hsc : scoreOf? seen r.productId = some r.score := scoreOf?_of_mem seen hnd r hr2
      rw [hseen, scoreOf?_foldl] at hsc
      simp only [scoreOf?, optMax] at hsc
      cases hm : maxScore? r.productId (contribs pImgs cands) with
      | none => rw [hm] at hsc; exact absurd hsc (by simp)
      | some m =>
        rw [hm] at hsc
        obtain ⟨hex, hbound⟩ := maxScore?_spec r.productId (contribs pImgs cands) m hm
        cases hsc
        exact ⟨hex, hbound⟩

/-- Witness for C2: a negative sentinel candidate is discarded at a concrete
index and candidate list; the validity hypothesis is discharged by `decide`. -/
theorem c2_aggregation_keeps_max_witness :
    aggregate pImgsEx ((2, -1) :: candsEx) 10 = aggregate pImgsEx candsEx 10 :=
  (c2_aggregation_keeps_max Nat pImgsEx candsEx 10 (by decide)).1 2 (-1) (by decide)

theorem hammingDistance_self (a : List Bool) : hammingDistance a a = 0 := by
  simp only [hammingDistance, List.zipWith_same]
  rw [List.count_eq_zero]
  simp

/-- C4: in the hash backend, for stored and query hashes of equal bit length
the candidate score equals `max(0, 1 - hammingDistance / hashSize²)`, lies in
`[0, 1]`, is non-increasing as Hamming distance grows, and equals exactly 1
when the query hash is identical to the stored hash (distance 0). -/
theorem c4_hash_score_formula (q h : List Bool) (hs : Nat)
    (h1 : 1 ≤ hs) (hq : q.length = hs * hs) (hh : h.length = hs * hs) :
    hashCandidateScore hs q h
        = max 0 (1 - (hammingDistance q h : ℚ) / ((hs * hs : Nat) : ℚ))
    ∧ 0 ≤ hashCandidateScore hs q h
    ∧ hashCandidateScore hs q h ≤ 1
    ∧ (∀ q' h' : List Bool, q'.length = hs * hs → h'.length = hs * hs →
        hammingDistance q h ≤ hammingDistance q' h' →
        hashCandidateScore hs q' h' ≤ hashCandidateScore hs q h)
    ∧ (q = h → hashCandidateScore hs q h = 1) := by
  have hk : (0 : ℚ) < ((hs * hs : Nat) : ℚ) := by
    have : 0 < hs * hs := Nat.mul_pos h1 h1
    exact_mod_cast this
  refine ⟨rfl, le_max_left _ _, ?_, ?_, ?_⟩
  · apply max_le
    · norm_num
    · have : (0 : ℚ) ≤ (hammingDistance q h : ℚ) / ((hs * hs : Nat) : ℚ) :=
        div_nonneg (Nat.cast_nonneg _) (Nat.cast_nonneg _)
      linarith
  · intro q' h' _ _ hd
    apply max_le_max le_rfl
    have : (hammingDistance q h : ℚ) / ((hs * hs : Nat) : ℚ)
        ≤ (hammingDistance q' h' : ℚ) / ((hs * hs : Nat) : ℚ) :=
      (div_le_div_iff_of_pos_right hk).mpr (by exact_mod_cast hd)
    linarith
  · intro he
    subst he
    rw [hashCandidateScore, hammingDistance_self]
    norm_num

/-- Witness for C4: `hashSize = 8` (a 64-bit hash) and a query identical to
the stored hash gives score exactly 1. -/
theorem c4_hash_score_formula_witness :
    hashCandidateScore 8 (List.replicate 64 true) (List.replicate 64 true) = 1 :=
  (c4_hash_score_formula (List.replicate 64 true) (List.replicate 64 true) 8
    (by decide) (by simp) (by simp)).2.2.2.2 rfl

theorem productMatch_some_shape (F : Type) (pImgs : List (IndexedImage F))
    (search : F → Nat → List (ℚ × Int)) (load : Option F) (topK : Nat)
    (res : List MatchResult) (hres : productMatch pImgs search load topK = some res) :
    (res = [] ∧ pImgs = []) ∨ ∃ (q : F) (seen : List MatchResult), load = some q
      ∧ aggregateLoop pImgs (search q (min (topK * 2) pImgs.length)) [] = some seen
      ∧ res = (sortDesc seen).take topK := by
  by_cases he : pImgs.isEmpty
  · left
    simp only [productMatch, if_pos he, Option.some_inj] at hres
    exact ⟨hres.symm, List.isEmpty_iff.mp he⟩
  · cases load with
    | none => simp [productMatch, if_neg he] at hres
    | some q =>
      simp only [productMatch, if_neg he] at hres
      cases hloop : aggregateLoop pImgs (search q (min (topK * 2) pImgs.length)) [] with
      | none =>
        simp only [aggregate, hloop] at hres
        exact absurd hres (by simp)
      | some seen =>
        simp only [aggregate, hloop, Option.map_some', Option.some_inj] at hres
        exact Or.inr ⟨q, seen, rfl, hloop, hres.symm⟩

theorem hashMatch_some_shape (hImgs : List (IndexedImage (List Bool)))
    (load : Option (List Bool)) (hashSize topK : Nat) (res : List MatchResult)
    (hres : hashMatch hImgs load hashSize topK = some res) :
    (res = [] ∧ hImgs = []) ∨ ∃ q : List Bool, load = some q
      ∧ res = (sortDesc ((hImgs.map (fun pi =>
          (⟨pi.productId, pi.onlineStoreUrl,
            hashCandidateScore hashSize q pi.feature⟩ : MatchResult))).foldl
              seenInsert [])).take topK := by
  by_cases he : hImgs.isEmpty
  · left
    simp only [hashMatch, if_pos he, Option.some_inj] at hres
    exact ⟨hres.symm, List.isEmpty_iff.mp he⟩
  · cases load with
    | none =>
      simp only [hashMatch, if_neg he] at hres
      exact absurd hres (by simp)
    | some q =>
      simp only [hashMatch, if_neg he, Option.some_inj] at hres
      refine Or.inr ⟨q, rfl, ?_⟩
      rw [← hres, List.foldl_map]

theorem sortDesc_sorted (l : List MatchResult) :
    (sortDesc l).Pairwise (fun a b => b.score ≤ a.score) :=
  List.sorted_insertionSort descRel l

theorem contribs_nil (cands : List (ℚ × Int)) :
    contribs ([] : List (IndexedImage F)) cands = [] := by
  simp only [contribs]
  rw [List.filterMap_eq_nil_iff]
  intro c _
  split
  · rfl
  · simp

theorem rank_complete (contr : List MatchResult) (topK : Nat)
    (hlen : ((contr.map MatchResult.productId).dedup).length ≤ topK) :
    ∀ pid ∈ contr.map MatchResult.productId,
      pid ∈ ((sortDesc (contr.foldl seenInsert [])).take topK).map
        MatchResult.productId := by
  intro pid hpid
  set seen := contr.foldl seenInsert [] with hseen
  have hnd : (seen.map MatchResult.productId).Nodup :=
    foldl_seenInsert_pid_nodup contr [] (by simp)
  have hmemiff : ∀ x, x ∈ seen.map MatchResult.productId
      ↔ x ∈ contr.map MatchResult.productId := by
    intro x
    rw [hseen, mem_pid_foldl]
    simp
  have hfin : (seen.map MatchResult.productId).toFinset
      = (contr.map MatchResult.productId).dedup.toFinset := by
    ext x
    simp only [List.mem_toFinset, List.mem_dedup]
    exact hmemiff x
  have hlen2 : (seen.map MatchResult.productId).length
      = ((contr.map MatchResult.productId).dedup).length := by
    rw [← List.toFinset_card_of_nodup hnd,
        ← List.toFinset_card_of_nodup (List.nodup_dedup _), hfin]
  have hmaplen : (seen.map MatchResult.productId).length = seen.length :=
    List.length_map seen MatchResult.productId
  have hsortlen : (sortDesc seen).length = seen.length :=
    (List.perm_insertionSort descRel seen).length_eq
  rw [List.take_of_length_le (by omega)]
  obtain ⟨r, hrmem, hrpid⟩ := List.mem_map.mp ((hmemiff pid).mpr hpid)
  exact List.mem_map.mpr
    ⟨r, (List.Perm.mem_iff (List.perm_insertionSort descRel seen)).mpr hrmem, hrpid⟩

/-- C5: every sequence returned by `match` is ordered by descending score and
has length at most the requested `topK`; when `topK` is at least the number of
distinct products among the candidates, every one of those products appears
in the output. -/
theorem c5_output_sorted_truncated (F : Type) (pImgs : List (IndexedImage F))
    (search : F → Nat → List (ℚ × Int)) (load : Option F) (topK : Nat)
    (hImgs : List (IndexedImage (List Bool))) (hload : Option (List Bool))
    (hashSize : Nat) :
    (∀ res, productMatch pImgs search load topK = some res →
        res.Pairwise (fun a b => b.score ≤ a.score) ∧ res.length ≤ topK)
    ∧ (∀ res, hashMatch hImgs hload hashSize topK = some res →
        res.Pairwise (fun a b => b.score ≤ a.score) ∧ res.length ≤ topK)
    ∧ (∀ (q : F) res, productMatch pImgs search (some q) topK = some res →
        ((contribs pImgs (search q (min (topK * 2) pImgs.length))).map
          MatchResult.productId).dedup.length ≤ topK →
        ∀ pid ∈ (contribs pImgs (search q (min (topK * 2) pImgs.length))).map
            MatchResult.productId,
          pid ∈ res.map MatchResult.productId)
    ∧ (∀ (q : List Bool) res, hashMatch hImgs (some q) hashSize topK = some res →
        (hImgs.map IndexedImage.productId).dedup.length ≤ topK →
        ∀ pid ∈ hImgs.map IndexedImage.productId,
          pid ∈ res.map MatchResult.productId) := by
  refine ⟨?_, ?_, ?_, ?_⟩
  · intro res hres
    rcases productMatch_some_shape F pImgs search load topK res hres with
      ⟨h, _⟩ | ⟨q, seen, _, _, h⟩
    · subst h; simp
    · subst h
      exact ⟨List.Pairwise.sublist (List.take_sublist _ _) (sortDesc_sorted seen),
        le_trans (List.length_take_le _ _) le_rfl⟩
  · intro res hres
    rcases hashMatch_some_shape hImgs hload hashSize topK res hres with
      ⟨h, _⟩ | ⟨q, _, h⟩
    · subst h; simp
    · subst h
      exact ⟨List.Pairwise.sublist (List.take_sublist _ _) (sortDesc_sorted _),
        le_trans (List.length_take_le _ _) le_rfl⟩
  · intro q res hres hlen pid hpid
    rcases productMatch_some_shape F pImgs search (some q) topK res hres with
      ⟨_, hempty⟩ | ⟨q', seen, hq, hloop, h⟩
    · subst hempty
      rw [contribs_nil] at hpid
      simp at hpid
    · cases Option.some_inj.mp hq
      subst h
      have hseen := aggregateLoop_some_eq pImgs _ [] seen hloop
      rw [hseen]
      exact rank_complete _ topK hlen pid hpid
  · intro q res hres hlen pid hpid
    rcases hashMatch_some_shape hImgs (some q) hashSize topK res hres with
      ⟨_, hempty⟩ | ⟨q', hq, h⟩
    · subst hempty
      simp at hpid
    · cases Option.some_inj.mp hq
      subst h
      set contr := hImgs.map (fun pi => (⟨pi.productId, pi.onlineStoreUrl,
        hashCandidateScore hashSize q pi.feature⟩ : MatchResult)) with hcontr
      have hmapeq : contr.map MatchResult.productId
          = hImgs.map IndexedImage.productId := by
        rw [hcontr, List.map_map]
        rfl
      refine rank_complete contr topK ?_ pid ?_
      · rw [hmapeq]; exact hlen
      · rw [hmapeq]; exact hpid

/-- Witness for C5: a concrete query against the two-image one-product index,
with its match output evaluated in full. -/
theorem c5_output_sorted_truncated_witness :
    ([⟨"p", "u", 2⟩] : List MatchResult).Pairwise (fun a b => b.score ≤ a.score)
    ∧ ([⟨"p", "u", 2⟩] : List MatchResult).length ≤ 10 :=
  (c5_output_sorted_truncated Nat pImgsEx (fun _ _ => candsEx) (some 0) 10 [] none 8).1
    [⟨"p", "u", 2⟩] (by decide)

/-- C8: two calls to `match` with the same image against the same built index
return identical ordered results; on exact score ties the output order is
deterministic and follows a stable sort over first-encountered order (the
`seen` dict preserves first-encounter order of product ids). -/
theorem c8_deterministic_stable_ties (F : Type) (pImgs : List (IndexedImage F))
    (search : F → Nat → List (ℚ × Int)) (load : Option F) (topK : Nat) :
    productMatch pImgs search load topK = productMatch pImgs search load topK
    ∧ (∀ (seen : List MatchResult) (a b : MatchResult),
        [a, b].Sublist seen → b.score ≤ a.score → [a, b].Sublist (sortDesc seen))
    ∧ (∀ (seen : List MatchResult) (r : MatchResult),
        (r.productId ∈ seen.map MatchResult.productId →
          (seenInsert seen r).map MatchResult.productId
            = seen.map MatchResult.productId)
        ∧ (r.productId ∉ seen.map MatchResult.productId →
          (seenInsert seen r).map MatchResult.productId
            = seen.map MatchResult.productId ++ [r.productId])) := by
  refine ⟨rfl, ?_, ?_⟩
  · intro seen a b hsub hba
    show [a, b].Sublist (List.insertionSort descRel seen)
    exact List.pair_sublist_insertionSort hba hsub
  · intro seen r
    refine ⟨fun hmem => ?_, fun hmem => ?_⟩ <;> rw [seenInsert_map_productId]
    · rw [if_pos hmem]
    · rw [if_neg hmem]

/-- Witness for C8: determinism at a concrete query, and an exact tie between
two concrete results kept in first-encountered order by the sort. -/
theorem c8_deterministic_stable_ties_witness :
    productMatch pImgsEx (fun _ _ => candsEx) (some 0) 10
        = productMatch pImgsEx (fun _ _ => candsEx) (some 0) 10
    ∧ [mrEx1, mrEx2].Sublist (sortDesc [mrEx1, mrEx2]) :=
  ⟨(c8_deterministic_stable_ties Nat pImgsEx (fun _ _ => candsEx) (some 0) 10).1,
   (c8_deterministic_stable_ties Nat pImgsEx (fun _ _ => candsEx) (some 0) 10).2.1
     [mrEx1, mrEx2] mrEx1 mrEx2 (List.Sublist.refl _) (le_refl _)⟩

/-- C7 counterexample: with a non-empty index, a failing query-image load
(`Image.open` raising on a missing or unreadable file inside
`load_and_strip_exif`) escapes `match` as an exception (modelled by `none`),
so a caller does see the match request throw for an environmental reason. -/
theorem c7_counterexample_query_load_escapes :
    productMatch pImgsEx (fun _ _ => []) none 10 = none := rfl

/-- C7 (amended): `match` does not throw when the index is empty (it returns
`[]` without touching the query image) nor when the query image loads
successfully (given in-range backend candidates); the hash matcher likewise;
but with a non-empty index a failed query-image load escapes as an
exception. -/
theorem c7_amended_no_throw_except_query_load (F : Type)
    (pImgs : List (IndexedImage F)) (search : F → Nat → List (ℚ × Int))
    (topK : Nat) (hImgs : List (IndexedImage (List Bool))) (hashSize : Nat) :
    (∀ load : Option F, pImgs = [] → productMatch pImgs search load topK = some [])
    ∧ (∀ q : F, (∀ c ∈ search q (min (topK * 2) pImgs.length), 0 ≤ c.2 →
          c.2.toNat < pImgs.length) →
        ∃ res, productMatch pImgs search (some q) topK = some res)
    ∧ (∀ q : List Bool, ∃ res, hashMatch hImgs (some q) hashSize topK = some res)
    ∧ (pImgs ≠ [] → productMatch pImgs search none topK = none) := by
  refine ⟨?_, ?_, ?_, ?_⟩
  · intro load hempty
    subst hempty
    rfl
  · intro q hvalid
    by_cases he : pImgs.isEmpty
    · exact ⟨[], by simp [productMatch, he]⟩
    · refine ⟨(sortDesc ((contribs pImgs
        (search q (min (topK * 2) pImgs.length))).foldl seenInsert [])).take topK, ?_⟩
      simp only [productMatch, if_neg he, aggregate,
        aggregateLoop_eq_foldl pImgs _ [] hvalid, Option.map_some']
  · intro q
    by_cases he : hImgs.isEmpty
    · exact ⟨[], by simp [hashMatch, he]⟩
    · refine ⟨(sortDesc (hImgs.foldl (fun seen pi => seenInsert seen
        ⟨pi.productId, pi.onlineStoreUrl, hashCandidateScore hashSize q pi.feature⟩)
          [])).take topK, ?_⟩
      simp only [hashMatch, if_neg he]
  · intro hne
    have he : pImgs.isEmpty = false := by
      cases pImgs with
      | nil => exact absurd rfl hne
      | cons a l => rfl
    simp [productMatch, he]

/-- Witness for the amended C7: the empty-index case and a successful load at
concrete inputs; hypotheses discharged by `decide`. -/
theorem c7_amended_no_throw_except_query_load_witness :
    productMatch ([] : List (IndexedImage Nat)) (fun _ _ => []) none 10 = some []
    ∧ productMatch pImgsEx (fun _ _ => candsEx) (some 0) 10 ≠ none := by
  refine ⟨(c7_amended_no_throw_except_query_load Nat [] (fun _ _ => []) 10 [] 8).1
    none rfl, ?_⟩
  obtain ⟨res, hres⟩ :=
    (c7_amended_no_throw_except_query_load Nat pImgsEx (fun _ _ => candsEx) 10 [] 8).2.1
      0 (by decide)
  simp [hres]

end AutoClassify
